import Mathlib

/-!
Verification of the `fast-array-rs` containers (FastArray, FastIterator,
FastMatrix) against their natural-language specification.

The Rust sources are shallowly embedded: buffers become `Nat`-indexed stores
(`Nat → α`), raw pointers become `Nat` addresses, allocation layouts become
`(size, align)` pairs, panicking assertions become `Option`/guarded results,
and in-place loops become explicit recursions over the store.
-/

namespace FastArrayRs

/-- An allocation layout, as produced by Rust `Layout::from_size_align` /
`Layout::array::<T>`: a byte size together with an alignment. -/
structure Layout where
  size : Nat
  align : Nat
deriving DecidableEq, Repr

/-- Embeds `Layout::from_size_align(sz, al)` (the checked construction always
succeeds for the sizes and the fixed alignment 32 used by this crate). -/
def Layout.fromSizeAlign (sz al : Nat) : Layout := ⟨sz, al⟩

/-- Embeds `Layout::array::<T>(len)` where `T` has size `sizeofT` and natural
alignment `alignofT`: the byte size is `len * size_of::<T>()` and the
alignment is `align_of::<T>()`. -/
def Layout.arrayOf (sizeofT alignofT len : Nat) : Layout := ⟨len * sizeofT, alignofT⟩

/-- The layout used by every `FastArray` allocating constructor except
`new_empty` (`src/fast_array/fast_array.rs`, e.g. lines 52, 121, 262):
`Layout::from_size_align(len * size_of::<T>(), 32)`. -/
def fastArrayAllocLayout (sizeofT len : Nat) : Layout :=
  Layout.fromSizeAlign (len * sizeofT) 32

/-- The layout used by `FastArray::new_empty` / `new_empty_unchecked`
(`fast_array.rs` lines 325, 347): `Layout::array::<T>(len)`, i.e. the natural
alignment of `T`, not 32. -/
def fastArrayNewEmptyLayout (sizeofT alignofT len : Nat) : Layout :=
  Layout.arrayOf sizeofT alignofT len

/-- The layout `Drop for FastArray` deallocates with (`fast_array.rs` line
617): `Layout::from_size_align(size * size_of::<T>(), 32)`. -/
def fastArrayDropLayout (sizeofT size : Nat) : Layout :=
  Layout.fromSizeAlign (size * sizeofT) 32

/-- The layout used by every `FastIterator` allocating constructor
(`src/fast_iterator/fast_iterator.rs` lines 27, 50, 92, 117):
`Layout::from_size_align(len * size_of::<T>(), 32)`. -/
def fastIteratorAllocLayout (sizeofT len : Nat) : Layout :=
  Layout.fromSizeAlign (len * sizeofT) 32

/-- The layout `Drop for FastIterator` deallocates with (`fast_iterator.rs`
line 169): `Layout::array::<T>(self.len)` — natural alignment of `T`. -/
def fastIteratorDropLayout (sizeofT alignofT len : Nat) : Layout :=
  Layout.arrayOf sizeofT alignofT len

/-- The layout used by every `FastMatrix` allocating constructor
(`src/fast_matrix/fast_matrix.rs` lines 50, 108, 211, 297):
`Layout::from_size_align(rows*columns * size_of::<T>(), 32)`. -/
def fastMatrixAllocLayout (sizeofT rows columns : Nat) : Layout :=
  Layout.fromSizeAlign (rows * columns * sizeofT) 32

/-- The layout `Drop for FastMatrix` deallocates with (`fast_matrix.rs` line
383): `Layout::array::<T>(rows * columns)` — natural alignment of `T`. -/
def fastMatrixDropLayout (sizeofT alignofT rows columns : Nat) : Layout :=
  Layout.arrayOf sizeofT alignofT (rows * columns)

/-- A `FastArray<T>` (`fast_array.rs` lines 27-30): a raw pointer and a
length.  `addr` is the pointer value; `buf o` is the content of slot `o`
of the owned buffer (meaningful for `o < size`). -/
structure FastArrayST (α : Type u) where
  addr : Nat
  buf : Nat → α
  size : Nat

/-- A `FastIterator<T>` over a buffer, combining `fast_iterator.rs` lines
13-17 (fields `pointer`, `len`, `current_index`) with the two-sided cursor
`current_index: (usize, usize)` that `into_fast_array`
(`fast_iterator_basics.rs` line 6) and `FastMatrix::into_fast_iter`
(`fast_matrix.rs` line 177) address as `.0`/`.1`.  `base` is the original
allocation address (the current pointer is `base + front`), `buf o` the
content of slot `o` of the original buffer, `front`/`back` the two
components of `current_index`. -/
structure FastIteratorST (α : Type u) where
  base : Nat
  buf : Nat → α
  len : Nat
  front : Nat
  back : Nat

/-- `Iterator::next for FastIterator` (`fast_iterator.rs` lines 138-148):
if `current_index >= len` yield nothing, else read the value at the current
pointer, advance the pointer and the (front) consumption counter. -/
def FastIteratorST.next (it : FastIteratorST α) : Option α × FastIteratorST α :=
  if it.len ≤ it.front then (none, it)
  else (some (it.buf it.front),
    { base := it.base, buf := it.buf, len := it.len,
      front := it.front + 1, back := it.back })

/-- `Iterator::size_hint for FastIterator` (`fast_iterator.rs` lines
151-153): `(self.len, Some(self.len))`, never adjusted for consumption. -/
def FastIteratorST.sizeHint (it : FastIteratorST α) : Nat × Option Nat :=
  (it.len, some it.len)

/-- `ExactSizeIterator::len for FastIterator` (`fast_iterator.rs` lines
176-181): returns the `len` field unchanged. -/
def FastIteratorST.lenFn (it : FastIteratorST α) : Nat :=
  it.len

/-- Apply `next` a given number of times and keep the final iterator state. -/
def FastIteratorST.nextK (it : FastIteratorST α) : Nat → FastIteratorST α
  | 0 => it
  | k + 1 => (it.next.2).nextK k

/-- `FastArray::as_fast_iterator` (`fast_array_basics.rs` lines 42-52):
transfer the buffer pointer into a fresh iterator with zero consumption. -/
def FastArrayST.asFastIterator (a : FastArrayST α) : FastIteratorST α :=
  { base := a.addr, buf := a.buf, len := a.size, front := 0, back := 0 }

/-- `FastIterator::into_fast_array` (`fast_iterator_basics.rs` lines 5-23):
`size = (len - current_index.0) - current_index.1`; when both cursors are
zero the buffer is reclaimed in place (no copy), otherwise a new buffer (at
an allocator-chosen address `freshAddr`) is filled by draining the iterator
through `FastArray::new_func`.  The returned `Bool` records whether the
zero-copy branch was taken. -/
def FastIteratorST.intoFastArray (freshAddr : Nat) (it : FastIteratorST α) :
    FastArrayST α × Bool :=
  let sz := it.len - it.front - it.back
  if it.front = 0 ∧ it.back = 0 then
    ({ addr := it.base, buf := it.buf, size := sz }, true)
  else
    ({ addr := freshAddr, buf := fun t => it.buf (it.front + t), size := sz }, false)

/-- `Drop for FastArray` (`fast_array.rs` lines 609-621) on a live (non-null)
array: the list of elements finalized by `ptr::drop_in_place` (slots `0..size`
in order) together with the deallocation layout. -/
def FastArrayST.dropModel (sizeofT : Nat) (a : FastArrayST α) : List α × Layout :=
  ((List.range a.size).map a.buf, fastArrayDropLayout sizeofT a.size)

/-- Embeds `ptr::swap` of two slots of a `Nat`-indexed store. -/
def swapF (a : Nat → α) (i j : Nat) : Nat → α :=
  fun k => if k = i then a j else if k = j then a i else a k

/-- `Index<usize> for FastArray` (`fast_array.rs` lines 572-581): the
checked read `assert!(!(index >= self.size))` followed by the dereference;
`none` models the fatal assertion failure. -/
def arrayIndex (size : Nat) (buf : Nat → α) (i : Nat) : Option α :=
  if i ≥ size then none else some (buf i)

/-- A `FastMatrix<T>` (`fast_matrix.rs` lines 30-34): a raw pointer, `rows`
and `columns`; `buf o` is the content of flat slot `o` (row-major,
`(r, c)` lives at `r * columns + c`). -/
structure FastMatrixST (α : Type u) where
  addr : Nat
  buf : Nat → α
  rows : Nat
  columns : Nat

/-- `Drop for FastMatrix` (`fast_matrix.rs` lines 378-392) on a live matrix:
the body only computes a layout and calls `dealloc` — it contains no
`drop_in_place` loop, so the list of finalized elements is empty. -/
def FastMatrixST.dropModel (sizeofT alignofT : Nat) (m : FastMatrixST α) :
    List α × Layout :=
  ([], fastMatrixDropLayout sizeofT alignofT m.rows m.columns)

/-- `Index<(usize, usize)> for FastMatrix` (`fast_matrix.rs` lines 350-358):
`assert!(index.0 < self.rows && index.1 < self.columns)` then read the flat
slot `index.0 * columns + index.1`; `none` models the fatal assertion. -/
def FastMatrixST.index (m : FastMatrixST α) (r c : Nat) : Option α :=
  if r < m.rows ∧ c < m.columns then some (m.buf (r * m.columns + c)) else none

/-- `FastMatrix::get_column` (`fast_matrix_basics.rs` lines 273-280):
`assert!(self.columns > column)`, then build a `FastArray` of length
`self.columns` (note: the source passes `self.columns`, not `self.rows`, to
`new_func_unchecked`) whose slot `i` is filled by the checked read
`self[(i, column)]`.  `none` models a fatal assertion during either the
bounds check or the fill loop. -/
def FastMatrixST.getColumn (m : FastMatrixST α) (column : Nat) : Option (List α) :=
  if m.columns > column then
    (List.range m.columns).mapM (fun i => m.index i column)
  else none

/-- `FastMatrix::swap` without its bounds checks, i.e. the
`swap_unchecked((i, c1), (i, c2))` body (`fast_matrix_basics.rs` lines
87-97): a raw `ptr::swap` of the two flat slots. -/
def FastMatrixST.swapUnchecked (m : FastMatrixST α) (i1 i2 : Nat × Nat) :
    FastMatrixST α :=
  { m with buf := swapF m.buf (i1.1 * m.columns + i1.2) (i2.1 * m.columns + i2.2) }

/-- The row loop of `FastMatrix::swap_columns`: for `i in 0..rows`,
`swap_unchecked((i, column1), (i, column2))`. -/
def FastMatrixST.swapColumnsLoop (m : FastMatrixST α) (c1 c2 : Nat) : Nat → FastMatrixST α
  | 0 => m
  | i + 1 => (m.swapColumnsLoop c1 c2 i).swapUnchecked (i, c1) (i, c2)

/-- `FastMatrix::swap_columns` (`fast_matrix_maths.rs` lines 91-100): the
source asserts `column1 < self.columns && column2 < self.rows` (the second
bound is checked against `rows`), then performs the unchecked per-row
swaps.  `none` models the fatal assertion failure. -/
def FastMatrixST.swapColumns (m : FastMatrixST α) (c1 c2 : Nat) :
    Option (FastMatrixST α) :=
  if c1 < m.columns ∧ c2 < m.rows then some (m.swapColumnsLoop c1 c2 m.rows)
  else none

/-- Wrapping `w`-bit addition of the scalar `k`: the shared semantics of the
scalar `+= other` and of one SIMD lane of `av + splat(other)` on a `w`-bit
integer element (values are `w`-bit patterns). -/
def wrapAdd (w k x : Nat) : Nat := (x + k) % 2 ^ w

/-- One in-place scalar `*self.pointer.add(i) += other` step. -/
def addAt (w k : Nat) (a : Nat → Nat) (i : Nat) : Nat → Nat :=
  fun j => if j = i then wrapAdd w k (a j) else a j

/-- Phase 1 of `FastArray::simd_add` (`fast_array_basics.rs` lines
347-352): scalar-process elements while `i < len` and the address
`pointer.add(i)` (= `p + i * s` for element size `s`) is not aligned to
`align_of::<Simd<T, 4>>() = A`.  Returns the updated store and the final
`i`. -/
def alignLoop (w k p s A n : Nat) (a : Nat → Nat) (i : Nat) : (Nat → Nat) × Nat :=
  if _h : i < n ∧ (p + i * s) % A ≠ 0 then
    alignLoop w k p s A n (addAt w k a i) (i + 1)
  else (a, i)
termination_by n - i
decreasing_by omega

/-- Phase 2 of `FastArray::simd_add` (lines 355-364): while `i + 4 <= len`,
add `splat(other)` to the four lanes at `i..i+4` in one step. -/
def vecLoop (w k n : Nat) (a : Nat → Nat) (i : Nat) : (Nat → Nat) × Nat :=
  if _h : i + 4 ≤ n then
    vecLoop w k n (fun j => if i ≤ j ∧ j < i + 4 then wrapAdd w k (a j) else a j) (i + 4)
  else (a, i)
termination_by n - i
decreasing_by omega

/-- Phase 3 of `FastArray::simd_add` (lines 367-372): scalar cleanup of the
remainder `i < len`. -/
def tailLoop (w k n : Nat) (a : Nat → Nat) (i : Nat) : Nat → Nat :=
  if _h : i < n then tailLoop w k n (addAt w k a i) (i + 1)
  else a
termination_by n - i
decreasing_by omega

/-- `FastArray::simd_add` (`fast_array_basics.rs` lines 340-373): the three
phases run in sequence on a buffer of `n` `w`-bit elements of size `s`
bytes at address `p`, with `A = align_of::<Simd<T, 4>>()`. -/
def simdAdd (w k p s A n : Nat) (a : Nat → Nat) : Nat → Nat :=
  let r1 := alignLoop w k p s A n a 0
  let r2 := vecLoop w k n r1.1 r1.2
  tailLoop w k n r2.1 r2.2

/-- Modelled from the spec: the naive scalar map that adds `k` (wrapping)
to every element below the length and leaves everything else alone. -/
def scalarAddMap (w k n : Nat) (a : Nat → Nat) : Nat → Nat :=
  fun i => if i < n then wrapAdd w k (a i) else a i

/-- The partial-pivot search of `FastMatrix::determinant`
(`fast_matrix_maths.rs` lines 193-200): for `i in k+1..n`, take `i` as the
new pivot whenever `mat[i*n+k] > mat[pivot*n+k]`, starting from
`pivot = k`.  The matrix is a flat row-major store of rationals. -/
def pivotSelect (mat : Nat → ℚ) (n k : Nat) : Nat :=
  (List.range' (k + 1) (n - (k + 1))).foldl
    (fun pivot i => if mat (i * n + k) > mat (pivot * n + k) then i else pivot) k

/-- The row-swap loop of `determinant` (lines 202-207): for `j in 0..n`,
`ptr::swap(mat + pivot*n + j, mat + k*n + j)`. -/
def swapRowsFull (mat : Nat → ℚ) (r1 r2 n : Nat) : Nat → ℚ :=
  (List.range n).foldl (fun m j => swapF m (r1 * n + j) (r2 * n + j)) mat

/-- The inner elimination loop of `determinant` (lines 218-220) on row `i`
with a fixed `factor`: for `j in k..n`, `mat[i*n+j] -= factor * mat[k*n+j]`
(reads go to the current state of the store). -/
def elimRow (n k i : Nat) (factor : ℚ) (mat : Nat → ℚ) : Nat → ℚ :=
  (List.range' k (n - k)).foldl
    (fun m j => fun idx => if idx = i * n + j then m idx - factor * m (k * n + j) else m idx)
    mat

/-- The outer elimination loop of `determinant` (lines 216-221): for
`i in k+1..n`, compute `factor = mat[i*n+k] / pivot_value` from the current
store, then run the inner loop on row `i`. -/
def elimBelow (n k : Nat) (pv : ℚ) (mat : Nat → ℚ) : Nat → ℚ :=
  (List.range' (k + 1) (n - (k + 1))).foldl
    (fun m i => elimRow n k i (m (i * n + k) / pv) m) mat

/-- The `for k in 0..n` loop of `FastMatrix::determinant`
(`fast_matrix_maths.rs` lines 184-225), with `gap = n - k` iterations left:
select the pivot row, swap it into place (flipping `sign`), return 0 early
on a zero pivot, otherwise accumulate `det *= pivot_value` and eliminate
below.  Returns the final `det * sign` together with the final state of the
(cloned, in-place mutated) store. -/
def detGo (n : Nat) : Nat → (Nat → ℚ) → ℚ → ℚ → Nat → ℚ × (Nat → ℚ)
  | 0, mat, det, sign, _ => (det * sign, mat)
  | gap + 1, mat, det, sign, k =>
    let pivot := pivotSelect mat n k
    let mat1 := if pivot ≠ k then swapRowsFull mat pivot k n else mat
    let sign1 := if pivot ≠ k then sign * (-1 : ℚ) else sign
    let pv := mat1 (k * n + k)
    if pv = 0 then (0, mat1)
    else detGo n gap (elimBelow n k pv mat1) (det * pv) sign1 (k + 1)

/-- `FastMatrix::determinant` on a square flat `n × n` store (`det` and
`sign` start at `T::try_from(1.0)`), returning both the result and the
final store. -/
def detSt (n : Nat) (mat : Nat → ℚ) : ℚ × (Nat → ℚ) :=
  detGo n n mat 1 1 0

/-- The value returned by `FastMatrix::determinant`. -/
def determinantModel (n : Nat) (mat : Nat → ℚ) : ℚ :=
  (detSt n mat).1

/-- The flat row-major `n × n` identity matrix. -/
def idFlat (n : Nat) : Nat → ℚ :=
  fun idx => if idx / n = idx % n then 1 else 0

/-- The spec example matrix `[[1,4],[2,3]]` as a flat store. -/
def exMat2 : Nat → ℚ :=
  fun idx => if idx = 0 then 1 else if idx = 1 then 4 else if idx = 2 then 2 else 3

/-- A 2×2 matrix whose first row is all zero (flat slots 0 and 1). -/
def zMat2 : Nat → ℚ :=
  fun idx => if idx ≤ 1 then 0 else 1

/-- The handle part of a `FastMatrix<T>` — exactly the fields the derived
`Clone` duplicates (`fast_matrix.rs` lines 5, 30-34): the raw pointer value
and the two dimensions. -/
structure FastMatrixH where
  addr : Nat
  rows : Nat
  columns : Nat
deriving DecidableEq, Repr

/-- The handle part of a `FastArray<T>` (`fast_array.rs` lines 25-30). -/
structure FastArrayH where
  addr : Nat
  size : Nat
deriving DecidableEq, Repr

/-- `#[derive(Clone)] for FastMatrix`: field-wise clone; cloning a `*mut T`
copies the pointer value, so the clone carries the same buffer address and
dimensions (no elements are cloned). -/
def FastMatrixH.cloneModel (m : FastMatrixH) : FastMatrixH :=
  { addr := m.addr, rows := m.rows, columns := m.columns }

/-- `#[derive(Clone)] for FastArray`: field-wise clone of the pointer value
and the length. -/
def FastArrayH.cloneModel (a : FastArrayH) : FastArrayH :=
  { addr := a.addr, size := a.size }

/-- Read element `(i, j)` of a matrix handle out of a global heap: the cell
lives at address `addr + i * columns + j`. -/
def readH (h : Nat → ℚ) (m : FastMatrixH) (i j : Nat) : ℚ :=
  h (m.addr + (i * m.columns + j))

/-- Write element `(i, j)` of a matrix handle into a global heap. -/
def writeH (h : Nat → ℚ) (m : FastMatrixH) (i j : Nat) (v : ℚ) : Nat → ℚ :=
  fun x => if x = m.addr + (i * m.columns + j) then v else h x

/-- The index sequence of a Rust `lo..=hi` loop over `isize` (empty when
`hi < lo`). -/
def intRange (lo hi : Int) : List Int :=
  (List.range (hi + 1 - lo).toNat).map (fun t : Nat => lo + t)

/-- One iteration of the `for j in left..=right-1` loop of `partition`
(`fast_array_basics.rs` lines 110-119), on the state `(store, i)` and with
`le x y` standing for `sort_func(&x, &y) != Greater` (the source moves the
element on `Less | Equal` and skips it on `Greater`): increment `i` and
`arr.swap(i as usize, j as usize)`. -/
def partStep {α : Type u} (le : α → α → Bool) (pivot : Nat) (st : (Nat → α) × Int) (j : Int) :
    (Nat → α) × Int :=
  if le (st.1 j.toNat) (st.1 pivot) then
    (swapF st.1 (st.2 + 1).toNat j.toNat, st.2 + 1)
  else st

/-- `partition` (`fast_array_basics.rs` lines 106-124): `pivot = right`,
`i` starts at `left - 1`, the loop runs `j` over `left..=right-1`, and a
final `arr.swap((i+1) as usize, pivot as usize)` places the pivot; returns
the store and `i + 1`.  (All swap indices are at most `right`, within the
array whenever `right < size`, so the bounds assertions of
`FastArray::swap` cannot fire.) -/
def partitionM {α : Type u} (le : α → α → Bool) (a : Nat → α) (left right : Int) :
    (Nat → α) × Int :=
  let pivot := right.toNat
  let st := (intRange left (right - 1)).foldl (partStep le pivot) (a, left - 1)
  (swapF st.1 (st.2 + 1).toNat pivot, st.2 + 1)

/-- `_quicksort` (`fast_array_basics.rs` lines 97-104), with an explicit
fuel bounding the recursion depth (the source recursion is unbounded;
`sortByModel` supplies fuel `n`, and `quicksortGo_spec` /
`quicksortGo_stable` show that this fuel is never exhausted): when
`left <= right`, partition — the source passes `0`, not `left`, as the
lower partition bound — and recurse on both sides of the returned index. -/
def quicksortGo {α : Type u} (le : α → α → Bool) : Nat → (Nat → α) → Int → Int → (Nat → α)
  | 0, a, _, _ => a
  | fuel + 1, a, left, right =>
    if left ≤ right then
      let p := partitionM le a 0 right
      let a2 := quicksortGo le fuel p.1 left (p.2 - 1)
      quicksortGo le fuel a2 (p.2 + 1) right
    else a

/-- `FastArray::sort_by(cmp)` via `quicksort_custom_sort`
(`fast_array_basics.rs` lines 84-86, 93-95) on an array of size `n`:
`_quicksort(arr, 0, (size - 1) as isize)`, with
`le x y = (cmp(&x, &y) != Greater)`. -/
def sortByModel {α : Type u} (le : α → α → Bool) (n : Nat) (a : Nat → α) : Nat → α :=
  quicksortGo le n a 0 ((n : Int) - 1)

/-- `FastArray::sort` (`fast_array_basics.rs` lines 67-69, 89-91):
quicksort under the natural-order comparator `a.cmp(&b)`, whose
non-`Greater` test is `x ≤ y`. -/
def sortModel {α : Type u} [LinearOrder α] (n : Nat) (a : Nat → α) : Nat → α :=
  sortByModel (fun x y => decide (x ≤ y)) n a

/-- The values of a store on the index interval `[lo, lo + len)`, in
order. -/
def segVals {α : Type u} (a : Nat → α) (lo len : Nat) : List α :=
  (List.range len).map (fun t => a (lo + t))

/-- A small concrete array used to instantiate the sorting theorems. -/
def exArr : Nat → Int :=
  fun i => if i = 0 then 2 else if i = 1 then 0 else 1

/-- The loop state of `partition(arr, 0, right)` after its first `m`
iterations (`j = 0..m-1`), with `right = r`: a reformulation of the
`intRange` fold of `partitionM` over a `Nat` index list, used to reason
about the loop; `partitionM_natCast` proves it equal to the source fold. -/
def partFold {α : Type u} (le : α → α → Bool) (r : Nat) (a : Nat → α) (m : Nat) :
    (Nat → α) × Int :=
  (List.range m).foldl (fun (st : (Nat → α) × Int) (t : Nat) => partStep le r st (t : Int)) (a, -1)

end FastArrayRs

namespace FastArrayRs

/-- Claim C1: for every consuming iterator the length declared by `len()`
and `size_hint()` always equals `length - consumed_from_front -
consumed_from_back`; after `k` successful `next()` calls on a fresh
iterator of length `n`, `len()` reports `n - k`.  The code violates this:
`len()`/`size_hint()` return the stored `len` field, which `next()` never
decrements.  On a fresh iterator of length 2, one successful `next()`
leaves `len() = 2` and `size_hint() = (2, some 2)` where the claim demands
`1` and `(1, some 1)`. -/
theorem c1_len_ignores_consumption :
    let it0 : FastIteratorST Int :=
      { base := 0, buf := fun _ => 0, len := 2, front := 0, back := 0 }
    let it1 := (FastIteratorST.next it0).2
    (FastIteratorST.next it0).1.isSome = true ∧
    it1.front = 1 ∧
    FastIteratorST.lenFn it1 = 2 ∧
    FastIteratorST.sizeHint it1 = (2, some 2) ∧
    ¬ FastIteratorST.lenFn it1 = 2 - 1 ∧
    ¬ FastIteratorST.sizeHint it1 = (2 - 1, some (2 - 1)) := by
  refine ⟨rfl, rfl, rfl, rfl, ?_, ?_⟩ <;> decide

/-- Claim C3: dropping a `FastMatrix` finalizes each of its `rows*columns`
elements before releasing the buffer, exactly as `FastArray`'s drop does.
The code violates this: `Drop for FastMatrix` deallocates without running a
single element destructor.  For a concrete 2×2 matrix the matrix drop
finalizes 0 elements (not 4), while the array drop over a 4-element buffer
finalizes all 4. -/
theorem c3_matrix_drop_skips_finalization :
    let m : FastMatrixST Int := { addr := 0, buf := fun o => (o : Int), rows := 2, columns := 2 }
    let a : FastArrayST Int := { addr := 0, buf := fun o => (o : Int), size := 4 }
    (FastMatrixST.dropModel 8 8 m).1.length = 0 ∧
    ¬ (FastMatrixST.dropModel 8 8 m).1.length = m.rows * m.columns ∧
    (FastArrayST.dropModel 8 a).1.length = a.size ∧
    (FastArrayST.dropModel 8 a).1 = [0, 1, 2, 3] := by
  refine ⟨rfl, by decide, rfl, rfl⟩

/-- Claim C5: converting an array to its consuming iterator and immediately
back (no intervening consumption) returns the very same array — same buffer
address, same length, identical element sequence — through the zero-copy
branch (flag `true`), so no element is cloned or dropped in the process. -/
theorem c5_round_trip_zero_copy {α : Type u} (a : FastArrayST α) (freshAddr : Nat) :
    FastIteratorST.intoFastArray freshAddr (FastArrayST.asFastIterator a) = (a, true) := by
  simp [FastIteratorST.intoFastArray, FastArrayST.asFastIterator]

/-- Claim C9: every container buffer is allocated at alignment 32 and freed
with exactly the allocation layout.  The code violates both halves: with
`T = u64` (size 8, natural alignment 8) and length 4,
`FastArray::new_empty` allocates at alignment 8 instead of 32, and the
`FastIterator` and `FastMatrix` drops deallocate at alignment 8 a buffer
that their constructors allocated at alignment 32. -/
theorem c9_layout_discipline_broken :
    (fastArrayNewEmptyLayout 8 8 4).align = 8 ∧
    ¬ (fastArrayNewEmptyLayout 8 8 4).align = 32 ∧
    ¬ fastIteratorDropLayout 8 8 4 = fastIteratorAllocLayout 8 4 ∧
    ¬ fastMatrixDropLayout 8 8 2 2 = fastMatrixAllocLayout 8 2 2 ∧
    fastArrayDropLayout 8 4 = fastArrayAllocLayout 8 4 := by
  refine ⟨rfl, by decide, by decide, by decide, rfl⟩

/-- Claim C2: `get_column(c)` returns an owned array of length `rows` whose
`i`-th element is `m[(i, c)]`, and never fails for any shape.  The code
violates this: it builds the result with length `columns` instead of
`rows`.  On a 2×3 matrix, `get_column(0)` reads `m[(2, 0)]` with row 2 out
of bounds and dies on the index assertion; on a 3×2 matrix it returns only
2 of the 3 column entries. -/
theorem c2_get_column_uses_columns_for_length :
    let m23 : FastMatrixST Nat := { addr := 0, buf := fun o => o, rows := 2, columns := 3 }
    let m32 : FastMatrixST Nat := { addr := 0, buf := fun o => o, rows := 3, columns := 2 }
    FastMatrixST.getColumn m23 0 = none ∧
    FastMatrixST.getColumn m32 0 = some [0, 2] ∧
    ¬ (FastMatrixST.getColumn m32 0).map List.length = some m32.rows := by
  refine ⟨rfl, rfl, by decide⟩

/-- Claim C8: every checked access or swap fails fatally whenever any
coordinate is out of range, including both column arguments of
`swap_columns`.  The code violates this for `swap_columns`: its assertion
checks `column2` against `rows` instead of `columns`, so on a 3×2 matrix
`swap_columns(0, 2)` passes the check and silently swaps wrapped flat slots
(cell `(1,0)` ends up holding the value of cell `(2,0)`) instead of
failing.  Plain array and matrix indexing do fail as claimed. -/
theorem c8_swap_columns_checks_wrong_bound :
    let m : FastMatrixST Nat := { addr := 0, buf := fun o => o, rows := 3, columns := 2 }
    (FastMatrixST.swapColumns m 0 2).isSome = true ∧
    ¬ FastMatrixST.swapColumns m 0 2 = none ∧
    ((FastMatrixST.swapColumns m 0 2).map (fun m2 => m2.buf (1 * m.columns + 0))) = some 4 ∧
    ¬ ((FastMatrixST.swapColumns m 0 2).map (fun m2 => m2.buf (1 * m.columns + 0))) = some 2 ∧
    arrayIndex 3 (fun o => o) 3 = none ∧
    FastMatrixST.index m 3 0 = none ∧
    FastMatrixST.index m 0 2 = none := by
  refine ⟨rfl, Option.isSome_iff_ne_none.mp rfl, by decide, by decide, rfl, rfl, rfl⟩

/-- The align-prefix loop processes exactly the interval `[i, i2)` for some
`i2` between `i` and `n`, applying the wrapping add there and leaving every
other slot untouched. -/
theorem alignLoop_spec (w k p s A n : Nat) :
    ∀ m i a, i ≤ n → n - i ≤ m →
      (i ≤ (alignLoop w k p s A n a i).2 ∧ (alignLoop w k p s A n a i).2 ≤ n) ∧
      ∀ j, (alignLoop w k p s A n a i).1 j =
        if i ≤ j ∧ j < (alignLoop w k p s A n a i).2 then wrapAdd w k (a j) else a j := by
  intro m
  induction m with
  | zero =>
    intro i a hin hm
    rw [alignLoop, dif_neg (by omega)]
    exact ⟨⟨le_rfl, hin⟩, fun j => by rw [if_neg (by omega)]⟩
  | succ m ih =>
    intro i a hin hm
    rw [alignLoop]
    by_cases h : i < n ∧ (p + i * s) % A ≠ 0
    · rw [dif_pos h]
      have hrec := ih (i + 1) (addAt w k a i) (by omega) (by omega)
      refine ⟨⟨by omega, hrec.1.2⟩, fun j => ?_⟩
      rw [hrec.2 j]
      rcases Nat.lt_trichotomy j i with hj | hj | hj
      · rw [if_neg (by omega), if_neg (by omega), addAt, if_neg (by omega)]
      · subst hj
        rw [if_neg (by omega), if_pos ⟨le_rfl, by omega⟩, addAt, if_pos rfl]
      · have : addAt w k a i j = a j := by rw [addAt, if_neg (by omega)]
        rw [this]
        by_cases hj2 : j < (alignLoop w k p s A n (addAt w k a i) (i + 1)).2
        · rw [if_pos ⟨by omega, hj2⟩, if_pos ⟨by omega, hj2⟩]
        · rw [if_neg (by omega), if_neg (by omega)]
    · rw [dif_neg h]
      exact ⟨⟨le_rfl, hin⟩, fun j => by rw [if_neg (by omega)]⟩

/-- The vector loop processes exactly the interval `[i, i2)` (in blocks of
four) for some `i2` between `i` and `n`. -/
theorem vecLoop_spec (w k n : Nat) :
    ∀ m i a, i ≤ n → n - i ≤ m →
      (i ≤ (vecLoop w k n a i).2 ∧ (vecLoop w k n a i).2 ≤ n) ∧
      ∀ j, (vecLoop w k n a i).1 j =
        if i ≤ j ∧ j < (vecLoop w k n a i).2 then wrapAdd w k (a j) else a j := by
  intro m
  induction m with
  | zero =>
    intro i a hin hm
    rw [vecLoop, dif_neg (by omega)]
    exact ⟨⟨le_rfl, hin⟩, fun j => by rw [if_neg (by omega)]⟩
  | succ m ih =>
    intro i a hin hm
    rw [vecLoop]
    by_cases h : i + 4 ≤ n
    · rw [dif_pos h]
      set a1 : Nat → Nat := fun j => if i ≤ j ∧ j < i + 4 then wrapAdd w k (a j) else a j with ha1
      have hrec := ih (i + 4) a1 (by omega) (by omega)
      refine ⟨⟨by omega, hrec.1.2⟩, fun j => ?_⟩
      rw [hrec.2 j]
      by_cases hj : j < i
      · rw [if_neg (by omega), if_neg (by omega), ha1]
        simp only []
        rw [if_neg (by omega)]
      · by_cases hj4 : j < i + 4
        · rw [if_neg (by omega), if_pos ⟨by omega, by omega⟩, ha1]
          simp only []
          rw [if_pos ⟨by omega, by omega⟩]
        · have ha1j : a1 j = a j := by rw [ha1]; simp only []; rw [if_neg (by omega)]
          rw [ha1j]
          by_cases hj2 : j < (vecLoop w k n a1 (i + 4)).2
          · rw [if_pos ⟨by omega, hj2⟩, if_pos ⟨by omega, hj2⟩]
          · rw [if_neg (by omega), if_neg (by omega)]
    · rw [dif_neg h]
      exact ⟨⟨le_rfl, hin⟩, fun j => by rw [if_neg (by omega)]⟩

/-- The scalar cleanup loop applies the wrapping add on exactly `[i, n)`. -/
theorem tailLoop_spec (w k n : Nat) :
    ∀ m i a, n - i ≤ m →
      ∀ j, tailLoop w k n a i j =
        if i ≤ j ∧ j < n then wrapAdd w k (a j) else a j := by
  intro m
  induction m with
  | zero =>
    intro i a hm j
    rw [tailLoop, dif_neg (by omega), if_neg (by omega)]
  | succ m ih =>
    intro i a hm j
    rw [tailLoop]
    by_cases h : i < n
    · rw [dif_pos h, ih (i + 1) (addAt w k a i) (by omega) j]
      rcases Nat.lt_trichotomy j i with hj | hj | hj
      · rw [if_neg (by omega), if_neg (by omega), addAt, if_neg (by omega)]
      · subst hj
        rw [if_neg (by omega), if_pos ⟨le_rfl, h⟩, addAt, if_pos rfl]
      · have : addAt w k a i j = a j := by rw [addAt, if_neg (by omega)]
        rw [this]
        by_cases hj2 : j < n
        · rw [if_pos ⟨by omega, hj2⟩, if_pos ⟨by omega, hj2⟩]
        · rw [if_neg (by omega), if_neg (by omega)]
    · rw [dif_neg h, if_neg (by omega)]

/-- Claim C6: for every pointer address `p`, element size `s`, vector
alignment `A`, scalar `k`, bit width `w` and every length `n` (multiples of
the 4-lane width and remainders alike), the three-phase
align-prefix/vector/scalar-remainder implementation of `simd_add` is
extensionally equal to the naive scalar wrapping map `+k` over the whole
array. -/
theorem c6_simd_add_is_scalar_map (w k p s A n : Nat) (a : Nat → Nat) :
    simdAdd w k p s A n a = scalarAddMap w k n a := by
  funext j
  have h1 := alignLoop_spec w k p s A n n 0 a (Nat.zero_le n) (by omega)
  set r1 := alignLoop w k p s A n a 0 with hr1
  have h2 := vecLoop_spec w k n n r1.2 r1.1 h1.1.2 (by omega)
  set r2 := vecLoop w k n r1.1 r1.2 with hr2
  have h3 := tailLoop_spec w k n n r2.2 r2.1 (by omega) j
  have hb1 : r1.2 ≤ n := h1.1.2
  have hb2 : r1.2 ≤ r2.2 := h2.1.1
  have hb3 : r2.2 ≤ n := h2.1.2
  have hres : simdAdd w k p s A n a j = tailLoop w k n r2.1 r2.2 j := rfl
  rw [hres, h3, h2.2 j, h1.2 j, scalarAddMap]
  split_ifs <;> first | rfl | omega

/-- Quotient of a flat row-major index: `(i * n + j) / n = i` when `j` is a
valid column. -/
theorem flat_div {n : Nat} (i : Nat) {j : Nat} (hj : j < n) : (i * n + j) / n = i := by
  have hn : 0 < n := by omega
  rw [Nat.mul_comm i n, Nat.mul_add_div hn, Nat.div_eq_of_lt hj]
  omega

/-- Remainder of a flat row-major index: `(i * n + j) % n = j` when `j` is a
valid column. -/
theorem flat_mod {n : Nat} (i : Nat) {j : Nat} (hj : j < n) : (i * n + j) % n = j := by
  rw [Nat.mul_comm i n, Nat.mul_add_mod, Nat.mod_eq_of_lt hj]

/-- Flat row-major addressing is injective on valid columns. -/
theorem flat_inj {n i j i2 j2 : Nat} (hj : j < n) (hj2 : j2 < n)
    (h : i * n + j = i2 * n + j2) : i = i2 ∧ j = j2 := by
  have hd := congrArg (fun x => x / n) h
  have hm := congrArg (fun x => x % n) h
  simp only [flat_div i hj, flat_div i2 hj2, flat_mod i hj, flat_mod i2 hj2] at hd hm
  exact ⟨hd, hm⟩

/-- Entries of the flat identity matrix at valid coordinates. -/
theorem idFlat_entry {n : Nat} (i : Nat) {j : Nat} (hj : j < n) :
    idFlat n (i * n + j) = if i = j then 1 else 0 := by
  rw [idFlat, flat_div i hj, flat_mod i hj]

/-- The pivot search scans rows of the current column range, so its result
stays between `k` and `n`. -/
theorem pivotSelect_bounds (mat : Nat → ℚ) {n k : Nat} (hk : k < n) :
    k ≤ pivotSelect mat n k ∧ pivotSelect mat n k < n := by
  rw [pivotSelect]
  have hgen : ∀ l : List Nat, (∀ x ∈ l, k ≤ x ∧ x < n) → ∀ p, k ≤ p → p < n →
      k ≤ l.foldl (fun pivot i =>
        if mat (i * n + k) > mat (pivot * n + k) then i else pivot) p ∧
      l.foldl (fun pivot i =>
        if mat (i * n + k) > mat (pivot * n + k) then i else pivot) p < n := by
    intro l
    induction l with
    | nil => intro _ p hp1 hp2; exact ⟨hp1, hp2⟩
    | cons x t ih =>
      intro hl p hp1 hp2
      simp only [List.foldl_cons]
      by_cases hx : mat (x * n + k) > mat (p * n + k)
      · rw [if_pos hx]
        exact ih (fun y hy => hl y (List.mem_cons_of_mem x hy))
          x (hl x (List.mem_cons_self x t)).1 (hl x (List.mem_cons_self x t)).2
      · rw [if_neg hx]
        exact ih (fun y hy => hl y (List.mem_cons_of_mem x hy)) p hp1 hp2
  refine hgen _ (fun x hx => ?_) k le_rfl hk
  have := List.mem_range'_1.mp hx
  omega

/-- If no row below `k` carries a strictly larger entry in column `k`, the
pivot search returns `k` itself. -/
theorem pivotSelect_eq_self (mat : Nat → ℚ) (n k : Nat)
    (h : ∀ i, k + 1 ≤ i → i < n → ¬ mat (i * n + k) > mat (k * n + k)) :
    pivotSelect mat n k = k := by
  rw [pivotSelect]
  have hgen : ∀ l : List Nat, (∀ x ∈ l, k + 1 ≤ x ∧ x < n) →
      l.foldl (fun pivot i =>
        if mat (i * n + k) > mat (pivot * n + k) then i else pivot) k = k := by
    intro l
    induction l with
    | nil => intro _; rfl
    | cons x t ih =>
      intro hl
      simp only [List.foldl_cons]
      rw [if_neg (h x (hl x (List.mem_cons_self x t)).1 (hl x (List.mem_cons_self x t)).2)]
      exact ih (fun y hy => hl y (List.mem_cons_of_mem x hy))
  refine hgen _ (fun x hx => ?_)
  have := List.mem_range'_1.mp hx
  omega

/-- Characterization of the full row swap: on valid columns, rows `r1` and
`r2` are exchanged and every other row is untouched. -/
theorem swapRowsFull_eval (mat : Nat → ℚ) {n : Nat} (r1 r2 : Nat) (hne : r1 ≠ r2)
    (i : Nat) {j : Nat} (hj : j < n) :
    swapRowsFull mat r1 r2 n (i * n + j) =
      if i = r1 then mat (r2 * n + j)
      else if i = r2 then mat (r1 * n + j)
      else mat (i * n + j) := by
  rw [swapRowsFull]
  have hgen : ∀ m, m ≤ n → ∀ i0 j0, j0 < n →
      ((List.range m).foldl (fun a j1 => swapF a (r1 * n + j1) (r2 * n + j1)) mat)
          (i0 * n + j0) =
        if i0 = r1 ∧ j0 < m then mat (r2 * n + j0)
        else if i0 = r2 ∧ j0 < m then mat (r1 * n + j0)
        else mat (i0 * n + j0) := by
    intro m
    induction m with
    | zero =>
      intro _ i0 j0 hj0
      simp only [List.range_zero, List.foldl_nil]
      rw [if_neg (by omega), if_neg (by omega)]
    | succ m ih =>
      intro hm i0 j0 hj0
      rw [List.range_succ, List.foldl_append]
      simp only [List.foldl_cons, List.foldl_nil]
      rw [swapF]
      by_cases h1 : i0 * n + j0 = r1 * n + m
      · obtain ⟨hi0, hj0m⟩ := flat_inj hj0 (by omega) h1
        rw [if_pos h1, ih (by omega) r2 m (by omega)]
        rw [if_neg (by omega), if_neg (by omega), hi0, hj0m,
          if_pos ⟨rfl, by omega⟩]
      · rw [if_neg h1]
        by_cases h2 : i0 * n + j0 = r2 * n + m
        · obtain ⟨hi0, hj0m⟩ := flat_inj hj0 (by omega) h2
          rw [if_pos h2, ih (by omega) r1 m (by omega)]
          rw [if_neg (by omega), if_neg (by omega), hi0, hj0m,
            if_neg (by omega), if_pos ⟨rfl, by omega⟩]
        · rw [if_neg h2, ih (by omega) i0 j0 hj0]
          have hne1 : ¬ (i0 = r1 ∧ j0 = m) := fun hc => h1 (by rw [hc.1, hc.2])
          have hne2 : ¬ (i0 = r2 ∧ j0 = m) := fun hc => h2 (by rw [hc.1, hc.2])
          by_cases hc1 : i0 = r1 ∧ j0 < m + 1
          · rw [if_pos hc1, if_pos ⟨hc1.1, by omega⟩]
          · rw [if_neg hc1]
            by_cases hc2 : i0 = r2 ∧ j0 < m + 1
            · rw [if_neg (by omega), if_pos hc2, if_pos ⟨hc2.1, by omega⟩]
            · rw [if_neg (by omega), if_neg hc2, if_neg (by omega)]
  rw [hgen n le_rfl i j hj]
  by_cases h1 : i = r1
  · rw [if_pos ⟨h1, hj⟩, if_pos h1]
  · rw [if_neg (by omega), if_neg h1]
    by_cases h2 : i = r2
    · rw [if_pos ⟨h2, hj⟩, if_pos h2]
    · rw [if_neg (by omega), if_neg h2]

/-- The inner elimination loop with factor 0 is the identity. -/
theorem elimRow_zero_factor (n k i : Nat) (mat : Nat → ℚ) :
    elimRow n k i 0 mat = mat := by
  rw [elimRow]
  have hgen : ∀ (l : List Nat) (m : Nat → ℚ),
      l.foldl (fun m j => fun idx =>
        if idx = i * n + j then m idx - 0 * m (k * n + j) else m idx) m = m := by
    intro l
    induction l with
    | nil => intro m; rfl
    | cons x t ih =>
      intro m
      simp only [List.foldl_cons]
      have hstep : (fun idx => if idx = i * n + x then m idx - 0 * m (k * n + x) else m idx)
          = m := by
        funext idx
        by_cases h : idx = i * n + x
        · rw [if_pos h, zero_mul, sub_zero]
        · rw [if_neg h]
      rw [hstep, ih]
  exact hgen _ mat

/-- The inner elimination loop only writes row `i`: every slot of a
different row (at a valid column) is untouched. -/
theorem elimRow_other_row (n k i : Nat) (factor : ℚ) (mat : Nat → ℚ)
    (r : Nat) (hri : r ≠ i) {j : Nat} (hj : j < n) :
    elimRow n k i factor mat (r * n + j) = mat (r * n + j) := by
  rw [elimRow]
  have hgen : ∀ (l : List Nat), (∀ x ∈ l, x < n) → ∀ (m : Nat → ℚ),
      l.foldl (fun m j0 => fun idx =>
        if idx = i * n + j0 then m idx - factor * m (k * n + j0) else m idx) m (r * n + j)
        = m (r * n + j) := by
    intro l
    induction l with
    | nil => intro _ m; rfl
    | cons x t ih =>
      intro hl m
      simp only [List.foldl_cons]
      rw [ih (fun y hy => hl y (List.mem_cons_of_mem x hy))]
      have : ¬ r * n + j = i * n + x := by
        intro hc
        exact hri (flat_inj hj (hl x (List.mem_cons_self x t)) hc).1
      rw [if_neg this]
  refine hgen _ (fun x hx => ?_) mat
  have := List.mem_range'_1.mp hx
  omega

/-- Elimination below row `k` preserves an all-zero row strictly below `k`:
rows other than the zero row never write into it, and the zero row's own
pass uses factor `0 / pv = 0`. -/
theorem elimBelow_zero_row {n k : Nat} (pv : ℚ) {r : Nat} (hk : k < n)
    (hkr : k < r) (hrn : r < n) (mat : Nat → ℚ)
    (hz : ∀ j, j < n → mat (r * n + j) = 0) :
    ∀ j, j < n → elimBelow n k pv mat (r * n + j) = 0 := by
  rw [elimBelow]
  have hgen : ∀ (l : List Nat), (∀ x ∈ l, x < n) → ∀ (m : Nat → ℚ),
      (∀ j, j < n → m (r * n + j) = 0) → ∀ j, j < n →
      (l.foldl (fun m i => elimRow n k i (m (i * n + k) / pv) m) m) (r * n + j) = 0 := by
    intro l
    induction l with
    | nil => intro _ m hm j hj; exact hm j hj
    | cons x t ih =>
      intro hl m hm
      simp only [List.foldl_cons]
      refine ih (fun y hy => hl y (List.mem_cons_of_mem x hy)) _ ?_
      by_cases hx : x = r
      · subst hx
        have hfac : m (x * n + k) / pv = 0 := by
          rw [hm k hk, zero_div]
        rw [hfac, elimRow_zero_factor]
        exact hm
      · intro j hj
        rw [elimRow_other_row n k x _ m r (fun hc => hx (hc.symm)) hj]
        exact hm j hj
  exact hgen _ (fun x hx => by have := List.mem_range'_1.mp hx; omega) mat hz

/-- If some row at or below `k` is entirely zero, the elimination loop of
`determinant` returns 0 (it reaches a zero pivot and stops early). -/
theorem detGo_zero_row (n : Nat) : ∀ gap k mat det sign, gap + k = n →
    (∃ r, k ≤ r ∧ r < n ∧ ∀ j, j < n → mat (r * n + j) = 0) →
    (detGo n gap mat det sign k).1 = 0 := by
  intro gap
  induction gap with
  | zero =>
    intro k mat det sign hgap ⟨r, hkr, hrn, _⟩
    omega
  | succ gap ih =>
    intro k mat det sign hgap ⟨r, hkr, hrn, hz⟩
    have hk : k < n := by omega
    simp only [detGo]
    have hpb := pivotSelect_bounds mat (k := k) hk
    by_cases hpk : pivotSelect mat n k = k
    · have hnot : ¬ (pivotSelect mat n k ≠ k) := fun h => h hpk
      simp only [if_neg hnot]
      by_cases hrk : r = k
      · have hpv : mat (k * n + k) = 0 := by
          have := hz k hk
          rw [hrk] at this
          exact this
        simp only [if_pos hpv]
      · by_cases hpv : mat (k * n + k) = 0
        · simp only [if_pos hpv]
        · simp only [if_neg hpv]
          refine ih (k + 1) _ _ _ (by omega) ⟨r, by omega, hrn, ?_⟩
          exact elimBelow_zero_row _ hk (by omega) hrn mat hz
    · simp only [if_pos hpk]
      have hswap := swapRowsFull_eval mat (n := n) (pivotSelect mat n k) k hpk
      by_cases hr1 : r = pivotSelect mat n k
      · have hpv : swapRowsFull mat (pivotSelect mat n k) k n (k * n + k) = 0 := by
          rw [hswap k hk, if_neg (fun hc => hpk hc.symm), if_pos rfl, ← hr1]
          exact hz k hk
        simp only [if_pos hpv]
      · by_cases hpv : swapRowsFull mat (pivotSelect mat n k) k n (k * n + k) = 0
        · simp only [if_pos hpv]
        · simp only [if_neg hpv]
          by_cases hr2 : r = k
          · refine ih (k + 1) _ _ _ (by omega) ⟨pivotSelect mat n k, by omega, hpb.2, ?_⟩
            refine elimBelow_zero_row _ hk (by omega) hpb.2 _ ?_
            intro j hj
            rw [hswap (pivotSelect mat n k) hj, if_pos rfl, ← hr2]
            exact hz j hj
          · refine ih (k + 1) _ _ _ (by omega) ⟨r, by omega, hrn, ?_⟩
            refine elimBelow_zero_row _ hk (by omega) hrn _ ?_
            intro j hj
            rw [hswap r hj, if_neg hr1, if_neg hr2]
            exact hz j hj

/-- The elimination below an identity pivot column leaves the identity
matrix unchanged: every factor is `0 / 1 = 0`. -/
theorem elimBelow_idFlat {n k : Nat} (hk : k < n) :
    elimBelow n k 1 (idFlat n) = idFlat n := by
  rw [elimBelow]
  have hgen : ∀ (l : List Nat), (∀ x ∈ l, k + 1 ≤ x ∧ x < n) →
      l.foldl (fun m i => elimRow n k i (m (i * n + k) / (1 : ℚ)) m) (idFlat n)
        = idFlat n := by
    intro l
    induction l with
    | nil => intro _; rfl
    | cons x t ih =>
      intro hl
      simp only [List.foldl_cons]
      have hfac : idFlat n (x * n + k) / (1 : ℚ) = 0 := by
        rw [idFlat_entry x hk,
          if_neg (by have := hl x (List.mem_cons_self x t); omega), zero_div]
      rw [hfac, elimRow_zero_factor]
      exact ih (fun y hy => hl y (List.mem_cons_of_mem x hy))
  exact hgen _ (fun x hx => by have := List.mem_range'_1.mp hx; omega)

/-- The main loop of `determinant` maps the identity matrix to determinant
1 while never modifying the store. -/
theorem detGo_idFlat (n : Nat) : ∀ gap k, gap + k = n →
    detGo n gap (idFlat n) 1 1 k = (1, idFlat n) := by
  intro gap
  induction gap with
  | zero =>
    intro k hgap
    simp only [detGo, one_mul]
  | succ gap ih =>
    intro k hgap
    have hk : k < n := by omega
    have hpk : pivotSelect (idFlat n) n k = k := by
      refine pivotSelect_eq_self _ n k (fun i hi1 hi2 => ?_)
      rw [idFlat_entry i hk, idFlat_entry k hk, if_neg (by omega), if_pos rfl]
      norm_num
    simp only [detGo, hpk]
    have hnot : ¬ (k ≠ k) := fun h => h rfl
    simp only [if_neg hnot]
    have hpv : idFlat n (k * n + k) = 1 := by
      rw [idFlat_entry k hk, if_pos rfl]
    rw [hpv]
    simp only [one_ne_zero, if_false, ite_false, elimBelow_idFlat hk, mul_one]
    exact ih (k + 1) (by omega)

/-- Claim C7: `determinant()` returns the exact determinant on the spec
examples — `-5` for the 2×2 matrix `[[1,4],[2,3]]`, `1` for every `n × n`
identity matrix with `n ≥ 1`, and `0` for every square matrix containing an
all-zero row (elimination stops early at the zero pivot). -/
theorem c7_determinant_examples (n : Nat) (_hn : 1 ≤ n) (mat : Nat → ℚ) (r : Nat)
    (hr : r < n) (hz : ∀ j, j < n → mat (r * n + j) = 0) :
    determinantModel 2 exMat2 = -5 ∧
    determinantModel n (idFlat n) = 1 ∧
    determinantModel n mat = 0 := by
  refine ⟨?_, ?_, ?_⟩
  · norm_num [determinantModel, detSt, detGo, pivotSelect, elimBelow, elimRow,
      swapRowsFull, swapF, exMat2, List.range', List.range_succ, List.range_zero]
  · have hid := detGo_idFlat n n 0 (by omega)
    rw [determinantModel, detSt, hid]
  · rw [determinantModel, detSt]
    exact detGo_zero_row n n 0 mat 1 1 (by omega) ⟨r, Nat.zero_le r, hr, hz⟩

/-- Witness for C7 at `n = 2` with the concrete zero-row matrix `zMat2`. -/
theorem c7_determinant_examples_witness :
    ((1 : Nat) ≤ 2 ∧ (0 : Nat) < 2 ∧ (∀ j, j < 2 → zMat2 (0 * 2 + j) = 0)) ∧
    (determinantModel 2 exMat2 = -5 ∧
     determinantModel 2 (idFlat 2) = 1 ∧
     determinantModel 2 zMat2 = 0) := by
  have hz : ∀ j, j < 2 → zMat2 (0 * 2 + j) = 0 := by
    intro j hj
    interval_cases j <;> rfl
  exact ⟨⟨by decide, by decide, hz⟩,
    c7_determinant_examples 2 (by decide) zMat2 0 (by decide) hz⟩

/-- Claim C10: `Clone` on the matrix and array handles is shallow — the
clone carries the same buffer address and dimensions — so a write through
the clone is readable through the original and vice versa; consequently
`determinant()`, which works on `self.clone()`, eliminates in place: after
it returns on `[[1,4],[2,3]]` the storage holds the eliminated matrix
`[[2,3],[0,5/2]]` instead of the original values. -/
theorem c10_clone_shallow_det_mutates (m : FastMatrixH) (a : FastArrayH)
    (h : Nat → ℚ) (i j : Nat) (v : ℚ) :
    FastMatrixH.cloneModel m = m ∧
    FastArrayH.cloneModel a = a ∧
    readH (writeH h (FastMatrixH.cloneModel m) i j v) m i j = v ∧
    readH (writeH h m i j v) (FastMatrixH.cloneModel m) i j = v ∧
    ((detSt 2 exMat2).2 0 = 2 ∧ (detSt 2 exMat2).2 1 = 3 ∧
      (detSt 2 exMat2).2 2 = 0 ∧ (detSt 2 exMat2).2 3 = 5 / 2) ∧
    ¬ ((detSt 2 exMat2).2 0 = exMat2 0 ∧ (detSt 2 exMat2).2 1 = exMat2 1 ∧
        (detSt 2 exMat2).2 2 = exMat2 2 ∧ (detSt 2 exMat2).2 3 = exMat2 3) := by
  refine ⟨rfl, rfl, ?_, ?_, ?_, ?_⟩
  · rw [readH, writeH]
    simp [FastMatrixH.cloneModel]
  · rw [readH, writeH]
    simp [FastMatrixH.cloneModel]
  · norm_num [detSt, detGo, pivotSelect, elimBelow, elimRow,
      swapRowsFull, swapF, exMat2, List.range', List.range_succ, List.range_zero]
  · norm_num [detSt, detGo, pivotSelect, elimBelow, elimRow,
      swapRowsFull, swapF, exMat2, List.range', List.range_succ, List.range_zero]


/-- Swapping a slot with itself changes nothing. -/
theorem swapF_self {α : Type u} (a : Nat → α) (i : Nat) : swapF a i i = a := by
  funext x
  rw [swapF]
  by_cases h : x = i
  · rw [if_pos h, h]
  · rw [if_neg h, if_neg h]

/-- A slot different from both swapped slots is untouched. -/
theorem swapF_ne {α : Type u} (a : Nat → α) {i j x : Nat} (h1 : x ≠ i) (h2 : x ≠ j) :
    swapF a i j x = a x := by
  rw [swapF, if_neg h1, if_neg h2]

/-- The first swapped slot receives the second slot's value. -/
theorem swapF_fst {α : Type u} (a : Nat → α) (i j : Nat) : swapF a i j i = a j := by
  rw [swapF, if_pos rfl]

/-- The second swapped slot receives the first slot's value. -/
theorem swapF_snd {α : Type u} (a : Nat → α) (i j : Nat) : swapF a i j j = a i := by
  rw [swapF]
  by_cases h : j = i
  · rw [if_pos h, h]
  · rw [if_neg h, if_pos rfl]

/-- `swapF` is symmetric in its two slots. -/
theorem swapF_comm {α : Type u} (a : Nat → α) (i j : Nat) :
    swapF a i j = swapF a j i := by
  funext x
  by_cases h1 : x = i
  · subst h1
    by_cases h2 : x = j
    · subst h2
      rfl
    · rw [swapF_fst, swapF, if_neg h2, if_pos rfl]
  · by_cases h2 : x = j
    · subst h2
      rw [swapF_snd, swapF_fst]
    · rw [swapF_ne a h1 h2, swapF_ne a h2 h1]

/-- Stores agreeing on an interval have identical value segments there. -/
theorem segVals_congr {α : Type u} {a b : Nat → α} (lo len : Nat)
    (h : ∀ x, lo ≤ x → x < lo + len → a x = b x) :
    segVals a lo len = segVals b lo len := by
  rw [segVals, segVals]
  refine List.map_congr_left (fun t ht => ?_)
  have := List.mem_range.mp ht
  exact h (lo + t) (by omega) (by omega)

/-- A value segment splits at any interior point. -/
theorem segVals_split {α : Type u} (a : Nat → α) (lo len1 len2 : Nat) :
    segVals a lo (len1 + len2) = segVals a lo len1 ++ segVals a (lo + len1) len2 := by
  rw [segVals, segVals, segVals, List.range_add len1 len2, List.map_append,
    List.map_map]
  congr 1
  refine List.map_congr_left (fun t _ => ?_)
  simp only [Function.comp]
  congr 1
  omega

/-- A length-one segment is the singleton at its left end. -/
theorem segVals_one {α : Type u} (a : Nat → α) (lo : Nat) :
    segVals a lo 1 = [a lo] := rfl

/-- Membership in a value segment. -/
theorem mem_segVals {α : Type u} {a : Nat → α} {lo len : Nat} {v : α} :
    v ∈ segVals a lo len ↔ ∃ x, lo ≤ x ∧ x < lo + len ∧ a x = v := by
  rw [segVals]
  constructor
  · intro h
    obtain ⟨t, ht, rfl⟩ := List.mem_map.mp h
    have := List.mem_range.mp ht
    exact ⟨lo + t, by omega, by omega, rfl⟩
  · rintro ⟨x, hx1, hx2, rfl⟩
    refine List.mem_map.mpr ⟨x - lo, List.mem_range.mpr (by omega), ?_⟩
    congr 1
    omega

/-- Exchanging one element from each side of a middle block is a
permutation. -/
theorem middle_swap_perm {α : Type u} (A B C : List α) (x y : α) :
    List.Perm (A ++ (y :: (B ++ x :: C))) (A ++ (x :: (B ++ y :: C))) := by
  refine List.Perm.append_left A ?_
  have p1 : List.Perm (B ++ x :: C) (x :: (B ++ C)) := List.perm_middle
  have p2 : List.Perm (B ++ y :: C) (y :: (B ++ C)) := List.perm_middle
  exact ((p1.cons y).trans (List.Perm.swap x y (B ++ C))).trans (p2.cons x).symm

/-- Swapping two slots strictly inside an interval permutes its value
segment (strict case `i1 < i2`). -/
theorem segVals_swapF_perm_lt {α : Type u} (a : Nat → α) {lo len i1 i2 : Nat}
    (hlt : i1 < i2) (h1 : lo ≤ i1) (h2 : i2 < lo + len) :
    List.Perm (segVals (swapF a i1 i2) lo len) (segVals a lo len) := by
  have hsplit : ∀ (b : Nat → α) (d1 d2 d3 : Nat),
      segVals b lo (d1 + (1 + (d2 + (1 + d3)))) =
        segVals b lo d1 ++
          (b (lo + d1) :: (segVals b (lo + d1 + 1) d2 ++
            (b (lo + d1 + 1 + d2) :: segVals b (lo + d1 + 1 + d2 + 1) d3))) := by
    intro b d1 d2 d3
    rw [segVals_split b lo d1 (1 + (d2 + (1 + d3))),
      segVals_split b (lo + d1) 1 (d2 + (1 + d3)), segVals_one,
      List.singleton_append,
      segVals_split b (lo + d1 + 1) d2 (1 + d3),
      segVals_split b (lo + d1 + 1 + d2) 1 d3, segVals_one,
      List.singleton_append]
  have key : ∀ b : Nat → α, segVals b lo len =
      segVals b lo (i1 - lo) ++
        (b i1 :: (segVals b (i1 + 1) (i2 - i1 - 1) ++
          (b i2 :: segVals b (i2 + 1) (lo + len - i2 - 1)))) := by
    intro b
    have h0 := hsplit b (i1 - lo) (i2 - i1 - 1) (lo + len - i2 - 1)
    have e0 : (i1 - lo) + (1 + ((i2 - i1 - 1) + (1 + (lo + len - i2 - 1)))) = len := by
      omega
    have e1 : lo + (i1 - lo) = i1 := by omega
    rw [e0, e1] at h0
    have e2 : i1 + 1 + (i2 - i1 - 1) = i2 := by omega
    rw [e2] at h0
    exact h0
  rw [key (swapF a i1 i2), key a]
  have hA : segVals (swapF a i1 i2) lo (i1 - lo) = segVals a lo (i1 - lo) :=
    segVals_congr lo (i1 - lo) (fun x hx1 hx2 => swapF_ne a (by omega) (by omega))
  have hB : segVals (swapF a i1 i2) (i1 + 1) (i2 - i1 - 1)
      = segVals a (i1 + 1) (i2 - i1 - 1) :=
    segVals_congr _ _ (fun x hx1 hx2 => swapF_ne a (by omega) (by omega))
  have hC : segVals (swapF a i1 i2) (i2 + 1) (lo + len - i2 - 1)
      = segVals a (i2 + 1) (lo + len - i2 - 1) :=
    segVals_congr _ _ (fun x hx1 hx2 => swapF_ne a (by omega) (by omega))
  rw [hA, hB, hC, swapF_fst, swapF_snd]
  exact middle_swap_perm _ _ _ (a i1) (a i2)

/-- Swapping two slots inside an interval permutes its value segment. -/
theorem segVals_swapF_perm {α : Type u} (a : Nat → α) {lo len i1 i2 : Nat}
    (h1a : lo ≤ i1) (h1b : i1 < lo + len) (h2a : lo ≤ i2) (h2b : i2 < lo + len) :
    List.Perm (segVals (swapF a i1 i2) lo len) (segVals a lo len) := by
  rcases Nat.lt_trichotomy i1 i2 with hlt | heq | hgt
  · exact segVals_swapF_perm_lt a hlt h1a h2b
  · subst heq
    rw [swapF_self]
  · rw [swapF_comm]
    exact segVals_swapF_perm_lt a hgt h2a h1b



/-- `partitionM le a 0 r` is the final swap applied to the `partFold` loop
state after all `r` iterations. -/
theorem partitionM_natCast {α : Type u} (le : α → α → Bool) (a : Nat → α) (r : Nat) :
    partitionM le a 0 (r : Int) =
      (swapF (partFold le r a r).1 (((partFold le r a r).2 + 1)).toNat r,
        (partFold le r a r).2 + 1) := by
  rw [partitionM, intRange]
  have h1 : ((r : Int) - 1 + 1 - 0) = (r : Int) := by ring
  rw [h1, Int.toNat_natCast, List.foldl_map]
  have hz : ((0 : Int) - 1) = (-1 : Int) := by decide
  have hfn : (fun (st : (Nat → α) × Int) (t : Nat) => partStep le r st (0 + (t : Int)))
      = (fun (st : (Nat → α) × Int) (t : Nat) => partStep le r st (t : Int)) := by
    funext st t
    rw [zero_add]
  rw [hz, hfn, partFold]

/-- Evaluating one `partStep` at a `Nat` index. -/
theorem partStep_natCast {α : Type u} (le : α → α → Bool) (r : Nat)
    (st : (Nat → α) × Int) (t : Nat) :
    partStep le r st (t : Int) =
      if le (st.1 t) (st.1 r) then (swapF st.1 (st.2 + 1).toNat t, st.2 + 1)
      else st := by
  rw [partStep, Int.toNat_natCast]

/-- While the loop of `partition(arr, 0, r)` scans the prefix below the
caller's segment (all of whose values are `le` the pivot), every swap is an
identity swap and `i` tracks `j` exactly. -/
theorem partFold_prefix {α : Type u} (le : α → α → Bool) {r : Nat} (a : Nat → α)
    {l : Nat} (hpre : ∀ x, x < l → le (a x) (a r) = true) :
    ∀ m, m ≤ l → partFold le r a m = (a, (m : Int) - 1) := by
  intro m
  induction m with
  | zero =>
    intro _
    rw [partFold]
    rfl
  | succ m ih =>
    intro hm
    rw [partFold, List.range_succ, List.foldl_append]
    have hprev : partFold le r a m = (a, (m : Int) - 1) := ih (by omega)
    rw [partFold] at hprev
    rw [hprev]
    simp only [List.foldl_cons, List.foldl_nil]
    rw [partStep_natCast, if_pos (hpre m (by omega))]
    have h1 : ((m : Int) - 1 + 1) = (m : Int) := by ring
    rw [h1, Int.toNat_natCast, swapF_self]
    congr 1
    push_cast
    ring

/-- The Lomuto loop invariant for `partition(arr, 0, r)` relative to a
caller segment starting at `l`: after `l + d` iterations the cursor `i`
sits in `[l - 1, l + d)`, only `[l, l + d)` has been touched (and only
permuted), values at `[l, i]` are `le` the pivot value and values at
`(i, l + d)` are not. -/
theorem partFold_core {α : Type u} (le : α → α → Bool) (a : Nat → α) {l r : Nat}
    (hpre : ∀ x, x < l → le (a x) (a r) = true) :
    ∀ d, l + d ≤ r →
      ((l : Int) - 1 ≤ (partFold le r a (l + d)).2 ∧
        (partFold le r a (l + d)).2 < (l : Int) + d) ∧
      (∀ x : Nat, (x < l ∨ l + d ≤ x) → (partFold le r a (l + d)).1 x = a x) ∧
      List.Perm (segVals (partFold le r a (l + d)).1 l d) (segVals a l d) ∧
      (∀ x : Nat, l ≤ x → (x : Int) ≤ (partFold le r a (l + d)).2 →
        le ((partFold le r a (l + d)).1 x) (a r) = true) ∧
      (∀ x : Nat, (partFold le r a (l + d)).2 < (x : Int) → x < l + d →
        le ((partFold le r a (l + d)).1 x) (a r) = false) := by
  intro d
  induction d with
  | zero =>
    intro _
    rw [Nat.add_zero, partFold_prefix le a hpre l le_rfl]
    refine ⟨⟨by omega, by omega⟩, fun x _ => rfl, List.Perm.refl _, ?_, ?_⟩
    · intro x hx1 hx2
      simp only [] at hx2
      omega
    · intro x hx1 hx2
      omega
  | succ d ih =>
    intro hd
    have hstep : partFold le r a (l + (d + 1)) =
        partStep le r (partFold le r a (l + d)) ((l + d : Nat) : Int) := by
      rw [partFold, partFold]
      have he : l + (d + 1) = (l + d) + 1 := by omega
      rw [he, List.range_succ, List.foldl_append]
      simp only [List.foldl_cons, List.foldl_nil]
    set pr := partFold le r a (l + d) with hpr
    obtain ⟨⟨hb1, hb2⟩, hframe, hperm, hle, hgt⟩ := ih (by omega)
    have hadr : pr.1 r = a r := hframe r (by omega)
    have hadj : pr.1 (l + d) = a (l + d) := hframe (l + d) (by omega)
    rw [hstep, partStep_natCast, hadj, hadr]
    by_cases hc : le (a (l + d)) (a r) = true
    · rw [if_pos hc]
      have hpN : (((pr.2 + 1).toNat : Int)) = pr.2 + 1 := Int.toNat_of_nonneg (by omega)
      set pN := (pr.2 + 1).toNat with hpNd
      have hpNl : l ≤ pN := by omega
      have hpNu : pN ≤ l + d := by omega
      refine ⟨⟨by dsimp only; omega, by dsimp only; omega⟩, ?_, ?_, ?_, ?_⟩
      · intro x hx
        dsimp only
        rw [swapF_ne pr.1 (by omega) (by omega)]
        exact hframe x (by omega)
      · dsimp only
        have hsw : List.Perm (segVals (swapF pr.1 pN (l + d)) l (d + 1))
            (segVals pr.1 l (d + 1)) :=
          segVals_swapF_perm pr.1 hpNl (by omega) (by omega) (by omega)
        refine hsw.trans ?_
        rw [segVals_split pr.1 l d 1, segVals_split a l d 1, segVals_one,
          segVals_one, hadj]
        exact List.Perm.append hperm (List.Perm.refl _)
      · intro x hx1 hx2
        dsimp only at hx2 ⊢
        by_cases hxp : x = pN
        · subst hxp
          rw [swapF_fst, hadj]
          exact hc
        · have hxid : (x : Int) ≤ pr.2 := by omega
          rw [swapF_ne pr.1 hxp (by omega)]
          exact hle x hx1 hxid
      · intro x hx1 hx2
        dsimp only at hx1 ⊢
        by_cases hxj : x = l + d
        · subst hxj
          rw [swapF_snd]
          have hplt : pN < l + d := by omega
          exact hgt pN (by omega) hplt
        · rw [swapF_ne pr.1 (by omega) hxj]
          exact hgt x (by omega) (by omega)
    · rw [if_neg hc]
      have hcf : le (a (l + d)) (a r) = false := by
        cases h : le (a (l + d)) (a r)
        · rfl
        · exact absurd h hc
      refine ⟨⟨by omega, by omega⟩, ?_, ?_, ?_, ?_⟩
      · intro x hx
        exact hframe x (by omega)
      · rw [segVals_split pr.1 l d 1, segVals_split a l d 1, segVals_one,
          segVals_one, hadj]
        exact List.Perm.append hperm (List.Perm.refl _)
      · intro x hx1 hx2
        exact hle x hx1 hx2
      · intro x hx1 hx2
        by_cases hxj : x = l + d
        · subst hxj
          rw [hadj]
          exact hcf
        · exact hgt x hx1 (by omega)


/-- Specification of `partition(arr, 0, r)` relative to a caller segment
`[l, r]` whose prefix is already `le` the pivot value: the returned index
`p` lies in `[l, r]`, slot `p` holds the pivot value, everything outside
`[l, r]` is untouched, the segment values are permuted, values strictly
left of `p` (within `[l, p)`) are `le` the pivot value, and values right of
`p` are not. -/
theorem partitionM_spec {α : Type u} (le : α → α → Bool) (a : Nat → α) {l r : Nat}
    (hlr : l ≤ r) (hpre : ∀ x, x < l → le (a x) (a r) = true) :
    ∃ p : Nat, (partitionM le a 0 (r : Int)).2 = (p : Int) ∧ l ≤ p ∧ p ≤ r ∧
      (partitionM le a 0 (r : Int)).1 p = a r ∧
      (∀ x : Nat, (x < l ∨ r < x) → (partitionM le a 0 (r : Int)).1 x = a x) ∧
      List.Perm (segVals (partitionM le a 0 (r : Int)).1 l (r + 1 - l))
        (segVals a l (r + 1 - l)) ∧
      (∀ x : Nat, l ≤ x → x < p → le ((partitionM le a 0 (r : Int)).1 x) (a r) = true) ∧
      (∀ x : Nat, p < x → x ≤ r → le ((partitionM le a 0 (r : Int)).1 x) (a r) = false) := by
  have hcore := partFold_core le a hpre (r - l) (by omega)
  have he : l + (r - l) = r := by omega
  rw [he] at hcore
  rw [partitionM_natCast]
  set pr := partFold le r a r with hpr
  obtain ⟨⟨hb1, hb2⟩, hframe, hperm, hle, hgt⟩ := hcore
  have hpN : (((pr.2 + 1).toNat : Int)) = pr.2 + 1 := Int.toNat_of_nonneg (by omega)
  set pN := (pr.2 + 1).toNat with hpNd
  have hpNl : l ≤ pN := by omega
  have hpNu : pN ≤ r := by omega
  refine ⟨pN, ?_, hpNl, hpNu, ?_, ?_, ?_, ?_, ?_⟩
  · dsimp only
    omega
  · dsimp only
    rw [swapF_fst]
    exact hframe r (by omega)
  · intro x hx
    dsimp only
    rw [swapF_ne pr.1 (by omega) (by omega)]
    exact hframe x (by omega)
  · dsimp only
    have hsw : List.Perm (segVals (swapF pr.1 pN r) l (r + 1 - l))
        (segVals pr.1 l (r + 1 - l)) :=
      segVals_swapF_perm pr.1 hpNl (by omega) (by omega) (by omega)
    refine hsw.trans ?_
    have hsum : r + 1 - l = (r - l) + 1 := by omega
    rw [hsum, segVals_split pr.1 l (r - l) 1, segVals_split a l (r - l) 1,
      segVals_one, segVals_one, he, hframe r (by omega)]
    exact List.Perm.append hperm (List.Perm.refl _)
  · intro x hx1 hx2
    dsimp only
    rw [swapF_ne pr.1 (by omega) (by omega)]
    exact hle x hx1 (by omega)
  · intro x hx1 hx2
    dsimp only
    by_cases hxr : x = r
    · subst hxr
      rw [swapF_snd]
      exact hgt pN (by omega) (by omega)
    · rw [swapF_ne pr.1 (by omega) hxr]
      exact hgt x (by omega) (by omega)



/-- Reflexivity of a total comparator. -/
theorem le_refl_of_total {α : Type u} {le : α → α → Bool}
    (htot : ∀ x y : α, le x y = true ∨ le y x = true) (v : α) : le v v = true :=
  (htot v v).elim id id

/-- A comparator rejecting one direction accepts the other. -/
theorem le_flip_of_total {α : Type u} {le : α → α → Bool}
    (htot : ∀ x y : α, le x y = true ∨ le y x = true) {v w : α}
    (h : le v w = false) : le w v = true := by
  rcases htot v w with h1 | h1
  · rw [h1] at h
    cases h
  · exact h1

/-- One unfolding step of `_quicksort`. -/
theorem quicksortGo_succ {α : Type u} (le : α → α → Bool) (fuel : Nat)
    (a : Nat → α) (left right : Int) :
    quicksortGo le (fuel + 1) a left right =
      if left ≤ right then
        quicksortGo le fuel
          (quicksortGo le fuel (partitionM le a 0 right).1 left
            ((partitionM le a 0 right).2 - 1))
          ((partitionM le a 0 right).2 + 1) right
      else a := rfl

/-- Main specification of `_quicksort` under a total, transitive
comparator: given enough fuel (one unit per element of the segment) and
the invariant that everything left of the segment is `le` everything in
it — the property that makes the `partition(arr, 0, right)` call behave as
a partition of `[left, right]` — the run touches only the segment,
permutes its values, and leaves it sorted. -/
theorem quicksortGo_spec {α : Type u} (le : α → α → Bool)
    (htot : ∀ x y : α, le x y = true ∨ le y x = true)
    (htrans : ∀ x y z : α, le x y = true → le y z = true → le x z = true) :
    ∀ (fuel : Nat) (a : Nat → α) (l r : Int), 0 ≤ l →
      r + 1 - l ≤ (fuel : Int) →
      (∀ x y : Nat, (x : Int) < l → l ≤ (y : Int) → (y : Int) ≤ r →
        le (a x) (a y) = true) →
      (∀ k : Nat, ((k : Int) < l ∨ r < (k : Int)) →
        quicksortGo le fuel a l r k = a k) ∧
      List.Perm (segVals (quicksortGo le fuel a l r) l.toNat (r + 1 - l).toNat)
        (segVals a l.toNat (r + 1 - l).toNat) ∧
      (∀ x y : Nat, l ≤ (x : Int) → x ≤ y → (y : Int) ≤ r →
        le (quicksortGo le fuel a l r x) (quicksortGo le fuel a l r y) = true) := by
  intro fuel
  induction fuel with
  | zero =>
    intro a l r hl hfuel hInv
    refine ⟨fun k _ => rfl, List.Perm.refl _, ?_⟩
    intro x y hx hxy hy
    omega
  | succ fuel ih =>
    intro a l r hl hfuel hInv
    by_cases hlr2 : l ≤ r
    · obtain ⟨lN, rfl⟩ := Int.eq_ofNat_of_zero_le hl
      obtain ⟨rN, rfl⟩ := Int.eq_ofNat_of_zero_le (le_trans hl hlr2)
      have hlrN : lN ≤ rN := by omega
      have hpre : ∀ x, x < lN → le (a x) (a rN) = true := by
        intro x hx
        exact hInv x rN (by omega) (by omega) (by omega)
      obtain ⟨p, hp2, hpl, hpr, hppiv, hpframe, hpperm, hple, hpgt⟩ :=
        partitionM_spec le a hlrN hpre
      rw [quicksortGo_succ, if_pos hlr2, hp2]
      set a1 := (partitionM le a 0 ((rN : Nat) : Int)).1 with ha1
      have hmem1 : ∀ y : Nat, lN ≤ y → y ≤ rN →
          ∃ t : Nat, lN ≤ t ∧ t ≤ rN ∧ a1 y = a t := by
        intro y hy1 hy2
        have hy3 : a1 y ∈ segVals a1 lN (rN + 1 - lN) :=
          mem_segVals.mpr ⟨y, by omega, by omega, rfl⟩
        obtain ⟨t, ht1, ht2, ht3⟩ := mem_segVals.mp (hpperm.mem_iff.mp hy3)
        exact ⟨t, by omega, by omega, ht3.symm⟩
      have hInv1 : ∀ x y : Nat, (x : Int) < (lN : Int) → (lN : Int) ≤ (y : Int) →
          (y : Int) ≤ (p : Int) - 1 → le (a1 x) (a1 y) = true := by
        intro x y hx hy1 hy2
        rw [hpframe x (by omega)]
        obtain ⟨t, ht1, ht2, ht3⟩ := hmem1 y (by omega) (by omega)
        rw [ht3]
        exact hInv x t (by omega) (by omega) (by omega)
      obtain ⟨frame1, perm1, sorted1⟩ :=
        ih a1 (lN : Int) ((p : Int) - 1) (by omega) (by omega) hInv1
      set a2 := quicksortGo le fuel a1 (lN : Int) ((p : Int) - 1) with ha2
      have hlen1 : (((p : Int) - 1) + 1 - (lN : Int)).toNat = p - lN := by omega
      have hloN : ((lN : Int)).toNat = lN := Int.toNat_natCast lN
      rw [hlen1, hloN] at perm1
      have ha2p : a2 p = a1 p := frame1 p (by omega)
      have hmem2 : ∀ x : Nat, lN ≤ x → x < p →
          ∃ t : Nat, lN ≤ t ∧ t < p ∧ a2 x = a1 t := by
        intro x hx1 hx2
        have hx3 : a2 x ∈ segVals a2 lN (p - lN) :=
          mem_segVals.mpr ⟨x, by omega, by omega, rfl⟩
        obtain ⟨t, ht1, ht2, ht3⟩ := mem_segVals.mp (perm1.mem_iff.mp hx3)
        exact ⟨t, by omega, by omega, ht3.symm⟩
      have hB1 : ∀ x : Nat, lN ≤ x → x ≤ p → le (a2 x) (a rN) = true := by
        intro x hx1 hx2
        by_cases hxp : x = p
        · subst hxp
          rw [ha2p, hppiv]
          exact le_refl_of_total htot (a rN)
        · obtain ⟨t, ht1, ht2, ht3⟩ := hmem2 x hx1 (by omega)
          rw [ht3]
          exact hple t ht1 ht2
      have hA : ∀ x : Nat, (x : Int) < (p : Int) + 1 → le (a2 x) (a rN) = true := by
        intro x hx
        by_cases hxl : x < lN
        · rw [frame1 x (by omega), hpframe x (by omega)]
          exact hpre x hxl
        · exact hB1 x (by omega) (by omega)
      have hInv2 : ∀ x y : Nat, (x : Int) < (p : Int) + 1 →
          (p : Int) + 1 ≤ (y : Int) → (y : Int) ≤ (rN : Int) →
          le (a2 x) (a2 y) = true := by
        intro x y hx hy1 hy2
        have hy3 : a2 y = a1 y := frame1 y (by omega)
        have hgty : le (a1 y) (a rN) = false := hpgt y (by omega) (by omega)
        have hy4 : le (a rN) (a2 y) = true := by
          rw [hy3]
          exact le_flip_of_total htot hgty
        exact htrans _ _ _ (hA x hx) hy4
      obtain ⟨frame2, perm2, sorted2⟩ :=
        ih a2 ((p : Int) + 1) (rN : Int) (by omega) (by omega) hInv2
      set res := quicksortGo le fuel a2 ((p : Int) + 1) (rN : Int) with hres
      have hlen2 : ((rN : Int) + 1 - ((p : Int) + 1)).toNat = rN - p := by omega
      have hlo2 : (((p : Int) + 1)).toNat = p + 1 := by omega
      rw [hlen2, hlo2] at perm2
      have hrespre : ∀ k : Nat, k ≤ p → res k = a2 k := by
        intro k hk
        exact frame2 k (by omega)
      have hB2 : ∀ y : Nat, p ≤ y → y ≤ rN → le (a rN) (res y) = true := by
        intro y hy1 hy2
        by_cases hyp : y = p
        · subst hyp
          rw [hrespre y le_rfl, ha2p, hppiv]
          exact le_refl_of_total htot (a rN)
        · have hy3 : res y ∈ segVals res (p + 1) (rN - p) :=
            mem_segVals.mpr ⟨y, by omega, by omega, rfl⟩
          obtain ⟨t, ht1, ht2, ht3⟩ := mem_segVals.mp (perm2.mem_iff.mp hy3)
          have ht4 : a2 t = a1 t := frame1 t (by omega)
          have hgtt : le (a1 t) (a rN) = false := hpgt t (by omega) (by omega)
          rw [← ht3, ht4]
          exact le_flip_of_total htot hgtt
      refine ⟨?_, ?_, ?_⟩
      · intro k hk
        rw [frame2 k (by omega), frame1 k (by omega), hpframe k (by omega)]
      · have hlenN : ((rN : Int) + 1 - (lN : Int)).toNat = rN + 1 - lN := by omega
        rw [hlenN, hloN]
        have step1 : List.Perm (segVals res lN (rN + 1 - lN))
            (segVals a2 lN (rN + 1 - lN)) := by
          have hsplit : rN + 1 - lN = (p + 1 - lN) + (rN - p) := by omega
          rw [hsplit, segVals_split res lN _ _, segVals_split a2 lN _ _]
          have heq : segVals res lN (p + 1 - lN) = segVals a2 lN (p + 1 - lN) :=
            segVals_congr _ _ (fun x hx1 hx2 => frame2 x (by omega))
          have hmid : lN + (p + 1 - lN) = p + 1 := by omega
          rw [heq, hmid]
          exact List.Perm.append (List.Perm.refl _) perm2
        have step2 : List.Perm (segVals a2 lN (rN + 1 - lN))
            (segVals a1 lN (rN + 1 - lN)) := by
          have hsplit : rN + 1 - lN = (p - lN) + (rN + 1 - p) := by omega
          rw [hsplit, segVals_split a2 lN _ _, segVals_split a1 lN _ _]
          have hmid : lN + (p - lN) = p := by omega
          rw [hmid]
          have heq : segVals a2 p (rN + 1 - p) = segVals a1 p (rN + 1 - p) :=
            segVals_congr _ _ (fun x hx1 hx2 => frame1 x (by omega))
          rw [heq]
          exact List.Perm.append perm1 (List.Perm.refl _)
        exact (step1.trans step2).trans hpperm
      · intro x y hx hxy hy
        by_cases hyl : y < p
        · have hx2 : res x = a2 x := hrespre x (by omega)
          have hy2 : res y = a2 y := hrespre y (by omega)
          rw [hx2, hy2]
          exact sorted1 x y (by omega) hxy (by omega)
        · by_cases hxg : p < x
          · exact sorted2 x y (by omega) hxy (by omega)
          · have hx3 : res x = a2 x := hrespre x (by omega)
            have hxle : le (res x) (a rN) = true := by
              rw [hx3]
              exact hA x (by omega)
            exact htrans _ _ _ hxle (hB2 y (by omega) (by omega))
    · rw [quicksortGo_succ, if_neg hlr2]
      refine ⟨fun k _ => rfl, List.Perm.refl _, ?_⟩
      intro x y hx hxy hy
      omega



/-- A call on an empty segment returns the store unchanged, whatever the
fuel. -/
theorem quicksortGo_empty {α : Type u} (le : α → α → Bool) (a : Nat → α)
    {l r : Int} (h : ¬ l ≤ r) : ∀ f : Nat, quicksortGo le f a l r = a := by
  intro f
  cases f with
  | zero => rfl
  | succ f => rw [quicksortGo_succ, if_neg h]

/-- Fuel stability of `_quicksort`: any fuel at least the segment length
produces the same result, i.e. the unbounded source recursion terminates
with the fuel-`n` value. -/
theorem quicksortGo_stable {α : Type u} (le : α → α → Bool)
    (htot : ∀ x y : α, le x y = true ∨ le y x = true)
    (htrans : ∀ x y z : α, le x y = true → le y z = true → le x z = true) :
    ∀ (fuel : Nat) (a : Nat → α) (l r : Int) (fuel2 : Nat), 0 ≤ l →
      r + 1 - l ≤ (fuel : Int) → fuel ≤ fuel2 →
      (∀ x y : Nat, (x : Int) < l → l ≤ (y : Int) → (y : Int) ≤ r →
        le (a x) (a y) = true) →
      quicksortGo le fuel2 a l r = quicksortGo le fuel a l r := by
  intro fuel
  induction fuel with
  | zero =>
    intro a l r fuel2 hl hfuel _ hInv
    rw [quicksortGo_empty le a (by omega) fuel2]
    rfl
  | succ fuel ih =>
    intro a l r fuel2 hl hfuel hf2 hInv
    obtain ⟨g, rfl⟩ : ∃ g, fuel2 = g + 1 := ⟨fuel2 - 1, by omega⟩
    by_cases hlr2 : l ≤ r
    · obtain ⟨lN, rfl⟩ := Int.eq_ofNat_of_zero_le hl
      obtain ⟨rN, rfl⟩ := Int.eq_ofNat_of_zero_le (le_trans hl hlr2)
      have hlrN : lN ≤ rN := by omega
      have hpre : ∀ x, x < lN → le (a x) (a rN) = true := by
        intro x hx
        exact hInv x rN (by omega) (by omega) (by omega)
      obtain ⟨p, hp2, hpl, hpr, hppiv, hpframe, hpperm, hple, hpgt⟩ :=
        partitionM_spec le a hlrN hpre
      rw [quicksortGo_succ le g, quicksortGo_succ le fuel, if_pos hlr2,
        if_pos hlr2, hp2]
      set a1 := (partitionM le a 0 ((rN : Nat) : Int)).1 with ha1
      have hmem1 : ∀ y : Nat, lN ≤ y → y ≤ rN →
          ∃ t : Nat, lN ≤ t ∧ t ≤ rN ∧ a1 y = a t := by
        intro y hy1 hy2
        have hy3 : a1 y ∈ segVals a1 lN (rN + 1 - lN) :=
          mem_segVals.mpr ⟨y, by omega, by omega, rfl⟩
        obtain ⟨t, ht1, ht2, ht3⟩ := mem_segVals.mp (hpperm.mem_iff.mp hy3)
        exact ⟨t, by omega, by omega, ht3.symm⟩
      have hInv1 : ∀ x y : Nat, (x : Int) < (lN : Int) → (lN : Int) ≤ (y : Int) →
          (y : Int) ≤ (p : Int) - 1 → le (a1 x) (a1 y) = true := by
        intro x y hx hy1 hy2
        rw [hpframe x (by omega)]
        obtain ⟨t, ht1, ht2, ht3⟩ := hmem1 y (by omega) (by omega)
        rw [ht3]
        exact hInv x t (by omega) (by omega) (by omega)
      have hrec1 : quicksortGo le g a1 (lN : Int) ((p : Int) - 1)
          = quicksortGo le fuel a1 (lN : Int) ((p : Int) - 1) :=
        ih a1 (lN : Int) ((p : Int) - 1) g (by omega) (by omega) (by omega) hInv1
      rw [hrec1]
      obtain ⟨frame1, perm1, sorted1⟩ :=
        quicksortGo_spec le htot htrans fuel a1 (lN : Int) ((p : Int) - 1)
          (by omega) (by omega) hInv1
      set a2 := quicksortGo le fuel a1 (lN : Int) ((p : Int) - 1) with ha2
      have hlen1 : (((p : Int) - 1) + 1 - (lN : Int)).toNat = p - lN := by omega
      have hloN : ((lN : Int)).toNat = lN := Int.toNat_natCast lN
      rw [hlen1, hloN] at perm1
      have ha2p : a2 p = a1 p := frame1 p (by omega)
      have hmem2 : ∀ x : Nat, lN ≤ x → x < p →
          ∃ t : Nat, lN ≤ t ∧ t < p ∧ a2 x = a1 t := by
        intro x hx1 hx2
        have hx3 : a2 x ∈ segVals a2 lN (p - lN) :=
          mem_segVals.mpr ⟨x, by omega, by omega, rfl⟩
        obtain ⟨t, ht1, ht2, ht3⟩ := mem_segVals.mp (perm1.mem_iff.mp hx3)
        exact ⟨t, by omega, by omega, ht3.symm⟩
      have hA : ∀ x : Nat, (x : Int) < (p : Int) + 1 → le (a2 x) (a rN) = true := by
        intro x hx
        by_cases hxl : x < lN
        · rw [frame1 x (by omega), hpframe x (by omega)]
          exact hpre x hxl
        · by_cases hxp : x = p
          · subst hxp
            rw [ha2p, hppiv]
            exact le_refl_of_total htot (a rN)
          · obtain ⟨t, ht1, ht2, ht3⟩ := hmem2 x (by omega) (by omega)
            rw [ht3]
            exact hple t ht1 ht2
      have hInv2 : ∀ x y : Nat, (x : Int) < (p : Int) + 1 →
          (p : Int) + 1 ≤ (y : Int) → (y : Int) ≤ (rN : Int) →
          le (a2 x) (a2 y) = true := by
        intro x y hx hy1 hy2
        have hy3 : a2 y = a1 y := frame1 y (by omega)
        have hgty : le (a1 y) (a rN) = false := hpgt y (by omega) (by omega)
        have hy4 : le (a rN) (a2 y) = true := by
          rw [hy3]
          exact le_flip_of_total htot hgty
        exact htrans _ _ _ (hA x hx) hy4
      exact ih a2 ((p : Int) + 1) (rN : Int) g (by omega) (by omega) (by omega) hInv2
    · rw [quicksortGo_empty le a hlr2, quicksortGo_empty le a hlr2]



/-- Claim C4: for every non-empty array, `a.sort()` terminates (the
unbounded source recursion stabilizes at the fuel-`n` value) and leaves
the traversal non-decreasing under the natural order; likewise
`a.sort_by(cmp)` under any comparator whose non-`Greater` relation is
total and transitive. -/
theorem c4_sort_terminates_and_sorts {α : Type} [LinearOrder α]
    (le : α → α → Bool)
    (htot : ∀ x y : α, le x y = true ∨ le y x = true)
    (htrans : ∀ x y z : α, le x y = true → le y z = true → le x z = true)
    (n : Nat) (_hn : 1 ≤ n) (a b : Nat → α) :
    (∀ i j : Nat, i ≤ j → j < n → sortModel n a i ≤ sortModel n a j) ∧
    (∀ fuel : Nat, n ≤ fuel →
      quicksortGo (fun x y : α => decide (x ≤ y)) fuel a 0 ((n : Int) - 1)
        = sortModel n a) ∧
    (∀ i j : Nat, i ≤ j → j < n →
      le (sortByModel le n b i) (sortByModel le n b j) = true) ∧
    (∀ fuel : Nat, n ≤ fuel →
      quicksortGo le fuel b 0 ((n : Int) - 1) = sortByModel le n b) := by
  have htot0 : ∀ x y : α, (fun x y : α => decide (x ≤ y)) x y = true ∨
      (fun x y : α => decide (x ≤ y)) y x = true := by
    intro x y
    rcases le_total x y with h | h
    · exact Or.inl (decide_eq_true h)
    · exact Or.inr (decide_eq_true h)
  have htrans0 : ∀ x y z : α, (fun x y : α => decide (x ≤ y)) x y = true →
      (fun x y : α => decide (x ≤ y)) y z = true →
      (fun x y : α => decide (x ≤ y)) x z = true := by
    intro x y z h1 h2
    exact decide_eq_true (le_trans (of_decide_eq_true h1) (of_decide_eq_true h2))
  have hInvA : ∀ x y : Nat, (x : Int) < 0 → (0 : Int) ≤ (y : Int) →
      (y : Int) ≤ (n : Int) - 1 →
      (fun x y : α => decide (x ≤ y)) (a x) (a y) = true :=
    fun x _ hx _ _ => absurd hx (by omega)
  have hInvB : ∀ x y : Nat, (x : Int) < 0 → (0 : Int) ≤ (y : Int) →
      (y : Int) ≤ (n : Int) - 1 → le (b x) (b y) = true :=
    fun x _ hx _ _ => absurd hx (by omega)
  have specA := quicksortGo_spec (fun x y : α => decide (x ≤ y)) htot0 htrans0
    n a 0 ((n : Int) - 1) le_rfl (by omega) hInvA
  have specB := quicksortGo_spec le htot htrans n b 0 ((n : Int) - 1)
    le_rfl (by omega) hInvB
  refine ⟨?_, ?_, ?_, ?_⟩
  · intro i j hij hj
    exact of_decide_eq_true (specA.2.2 i j (by omega) hij (by omega))
  · intro fuel hfuel
    exact quicksortGo_stable (fun x y : α => decide (x ≤ y)) htot0 htrans0
      n a 0 ((n : Int) - 1) fuel le_rfl (by omega) hfuel hInvA
  · intro i j hij hj
    exact specB.2.2 i j (by omega) hij (by omega)
  · intro fuel hfuel
    exact quicksortGo_stable le htot htrans n b 0 ((n : Int) - 1) fuel
      le_rfl (by omega) hfuel hInvB

/-- Witness for C4 on the concrete array `exArr` of length 3, under the
natural order and the reversed comparator. -/
theorem c4_sort_terminates_and_sorts_witness :
    (1 : Nat) ≤ 3 ∧
    sortModel 3 exArr 0 ≤ sortModel 3 exArr 2 ∧
    quicksortGo (fun x y : Int => decide (x ≤ y)) 5 exArr 0 ((3 : Int) - 1)
      = sortModel 3 exArr ∧
    (fun x y : Int => decide (y ≤ x)) (sortByModel (fun x y : Int => decide (y ≤ x)) 3 exArr 0)
      (sortByModel (fun x y : Int => decide (y ≤ x)) 3 exArr 2) = true ∧
    quicksortGo (fun x y : Int => decide (y ≤ x)) 5 exArr 0 ((3 : Int) - 1)
      = sortByModel (fun x y : Int => decide (y ≤ x)) 3 exArr := by
  have h := c4_sort_terminates_and_sorts (fun x y : Int => decide (y ≤ x))
    (by
      intro x y
      rcases le_total y x with hc | hc
      · exact Or.inl (decide_eq_true hc)
      · exact Or.inr (decide_eq_true hc))
    (by
      intro x y z h1 h2
      exact decide_eq_true (le_trans (of_decide_eq_true h2) (of_decide_eq_true h1)))
    3 (by decide) exArr exArr
  exact ⟨by decide, h.1 0 2 (by decide) (by decide), h.2.1 5 (by decide),
    h.2.2.1 0 2 (by decide) (by decide), h.2.2.2 5 (by decide)⟩


end FastArrayRs
